import Mathlib

/-!
Verification of the continuation-indentation policy and translator fragments
of the Modelica formatter (`src/formatter/src/printer.ts`,
`src/formatter/src/parser.ts`).

The syntax tree consumed by the printer is the `ASTNode` interface of
`parser.ts` (a kind tag, optional source text, ordered children; the source
range and error flags are not consulted by any function embedded here).
The prettier `AstPath` is modelled as the list of nodes from the current node
upward: `path[0]` is the current node, `path[1]` its parent, and
`path.getParentNode(i)` returns `path[i+1]` (in prettier,
`getParentNode(0)` is the immediate parent).  JavaScript reference equality
(`===`) between a path entry and a child of its parent is modelled as
structural equality, which coincides with it on trees whose siblings are
pairwise distinct.
-/

inductive ASTNode where
  | mk : String → Option String → List ASTNode → ASTNode

mutual

/-- Structural equality on `ASTNode`, modelling JavaScript `===` between a
path entry and the children of its parent (see module docstring). -/
def ASTNode.beq : ASTNode → ASTNode → Bool
  | .mk t1 x1 c1, .mk t2 x2 c2 => t1 == t2 && x1 == x2 && ASTNode.beqList c1 c2
termination_by structural n => n

/-- Pointwise `ASTNode.beq` on child lists. -/
def ASTNode.beqList : List ASTNode → List ASTNode → Bool
  | [], [] => true
  | a :: as, b :: bs => ASTNode.beq a b && ASTNode.beqList as bs
  | _, _ => false
termination_by structural l => l

end

instance : BEq ASTNode := ⟨ASTNode.beq⟩

/-- The `type` field of an `ASTNode` (the tree-sitter kind tag). -/
def ASTNode.type : ASTNode → String
  | .mk t _ _ => t

/-- The `text` field of an `ASTNode` (source text, absent on some nodes). -/
def ASTNode.text : ASTNode → Option String
  | .mk _ x _ => x

/-- The `children` field of an `ASTNode`. -/
def ASTNode.children : ASTNode → List ASTNode
  | .mk _ _ c => c

/-- A prettier `AstPath`, as the chain of nodes from the current node up to
the root: head = current node, then parent, grandparent, … -/
def AstPath := List ASTNode

/-- `path.getParentNode(i)`: in prettier `getParentNode(0)` is the immediate
parent of the current node, so index `i` addresses `path[i+1]`. -/
def getParentNode (path : AstPath) (i : Nat) : Option ASTNode :=
  List.get? path (i + 1)

/-- `isIfExpressionValue(ifExpr, childIndex)` from `printer.ts`:
child 0 is the condition (false), child 1 the then-value (true), children
2+ are values unless they are `else_if_clause` nodes.  A missing child is
falsy in JavaScript, hence `false`. -/
def isIfExpressionValue (ifExpr : ASTNode) (childIndex : Nat) : Bool :=
  if childIndex = 0 then false
  else if childIndex = 1 then true
  else
    match List.get? ifExpr.children childIndex with
    | none => false
    | some child => child.type ≠ "else_if_clause"

/-- Loop body of `isInsideIfExpressionValue`: `for (let i = 1; i < 20; i++)`.
At each level: a missing ancestor ends the walk (false); an `if_expression`
ancestor is inspected through the child the walk came from
(`findIndex` with `===` over the children of the ancestor); the five boundary
kinds end the walk; anything else is skipped. -/
def insideIfLoop (path : AstPath) (i : Nat) : Nat → Bool
  | 0 => false
  | fuel + 1 =>
    match getParentNode path i with
    | none => false
    | some ancestor =>
      let continueWalk : Bool :=
        if ancestor.type = "declaration" then false
        else if ancestor.type = "component_declaration" then false
        else if ancestor.type = "equation" then false
        else if ancestor.type = "statement" then false
        else if ancestor.type = "element" then false
        else insideIfLoop path (i + 1) fuel
      if ancestor.type = "if_expression" then
        match getParentNode path (i - 1) with
        | none => false
        | some prevAncestor =>
          match List.findIdx? (fun c => c == prevAncestor) ancestor.children with
          | some childIndex =>
            if isIfExpressionValue ancestor childIndex then true else continueWalk
          | none => continueWalk
      else continueWalk

/-- `isInsideIfExpressionValue(path)` from `printer.ts`: walks ancestors
(from the grandparent, since the loop starts at `getParentNode(1)`) looking
for an `if_expression` reached through a then/else value child.  The loop
counter starts at `i = 1` and the guard `i < 20` allows 19 iterations,
here the initial fuel. -/
def isInsideIfExpressionValue (path : AstPath) : Bool :=
  insideIfLoop path 1 19

/-- Loop body of `isInContinuationContext`: `for (let i = 1; i < 15; i++)`.
`named_argument` and `parenthesized_expression` ancestors claim a
continuation context; an `if_expression` ancestor claims one exactly when
`isInsideIfExpressionValue` holds of the whole path; the six boundary kinds
end the walk; every other kind is skipped. -/
def contLoop (path : AstPath) (i : Nat) : Nat → Bool
  | 0 => false
  | fuel + 1 =>
    match getParentNode path i with
    | none => false
    | some ancestor =>
      if ancestor.type = "named_argument" then true
      else if ancestor.type = "parenthesized_expression" then true
      else if ancestor.type = "if_expression" ∧ isInsideIfExpressionValue path then true
      else if ancestor.type = "declaration" then false
      else if ancestor.type = "component_declaration" then false
      else if ancestor.type = "equation" then false
      else if ancestor.type = "statement" then false
      else if ancestor.type = "element" then false
      else if ancestor.type = "function_call_args" then false
      else contLoop path (i + 1) fuel

/-- `isInContinuationContext(path)` from `printer.ts`: loop counter from
`i = 1` with guard `i < 15`, i.e. 14 iterations, here the initial fuel. -/
def isInContinuationContext (path : AstPath) : Bool :=
  contLoop path 1 14

/-! ## The prettier Document model

The printer builds documents from the prettier `doc.builders`; the subset it
uses for the constructs verified here is `text` (plain strings), arrays
(concatenation), `line`, `softline`, `hardline`, `indent`, `group` (with a
`shouldBreak` option) and `conditionalGroup`. -/

inductive Doc where
  | text : String → Doc
  | concat : List Doc → Doc
  | line : Doc
  | softline : Doc
  | hardline : Doc
  | indent : Doc → Doc
  | group : Doc → Bool → Doc
  | conditionalGroup : List Doc → Doc

/-- `wrapContinuation(content, path)` from `printer.ts`: inside an existing
continuation context, `group([line, content])` (break, no extra indent);
otherwise `group([indent([line, content])])`. -/
def wrapContinuation (content : Doc) (path : AstPath) : Doc :=
  if isInContinuationContext path then
    Doc.group (Doc.concat [Doc.line, content]) false
  else
    Doc.group (Doc.concat [Doc.indent (Doc.concat [Doc.line, content])]) false

/-! ## Operator extraction (`extractOperator` in `printer.ts`)

JavaScript string primitives used by it, on Lean strings. -/

/-- JavaScript `s.indexOf(pat)`: smallest start index of `pat` in `s`, `-1`
when absent (`0` for the empty pattern). -/
def strIndexOf (s pat : String) : Int :=
  match List.find? (fun i => List.isPrefixOf pat.toList (List.drop i s.toList))
      (List.range (s.toList.length + 1)) with
  | some i => (i : Int)
  | none => -1

/-- JavaScript `s.lastIndexOf(pat)`: largest start index of `pat` in `s`,
`-1` when absent. -/
def strLastIndexOf (s pat : String) : Int :=
  match List.find? (fun i => List.isPrefixOf pat.toList (List.drop i s.toList))
      (List.reverse (List.range (s.toList.length + 1))) with
  | some i => (i : Int)
  | none => -1

/-- JavaScript `s.substring(a, b)`: clamps both arguments to `[0, s.length]`
and swaps them when out of order. -/
def strSubstring (s : String) (a b : Int) : String :=
  let n : Int := s.toList.length
  let a' := min (max a 0) n
  let b' := min (max b 0) n
  let lo := min a' b'
  let hi := max a' b'
  String.mk (List.take (hi - lo).toNat (List.drop lo.toNat s.toList))

/-- JavaScript `s.includes(pat)`. -/
def strIncludes (s pat : String) : Bool :=
  strIndexOf s pat ≥ 0

/-- JavaScript `s.trim()`: strip leading and trailing whitespace. -/
def jsTrim (s : String) : String :=
  String.mk (List.reverse (List.dropWhile Char.isWhitespace
    (List.reverse (List.dropWhile Char.isWhitespace s.toList))))

/-- Fallback operator list of `extractOperator` (in source order). -/
def fallbackOperators : List String :=
  ["==", "<>", "<=", ">=", ".+", ".-", ".*", "./", ".^",
   "and", "or", "<", ">", "+", "-", "*", "/", "^", "="]

/-- `extractOperator(fullText, leftChild, rightChild)` from `printer.ts`:
the trimmed text between the end of the text of the left operand and the
last occurrence of the text of the right operand; falls back to scanning for known
operator tokens, and to `"?"`. -/
def extractOperator (fullText : String) (leftChild rightChild : ASTNode) : String :=
  let leftText := leftChild.text.getD ""
  let rightText := rightChild.text.getD ""
  let leftEnd : Int := strIndexOf fullText leftText + leftText.toList.length
  let rightStart : Int := strLastIndexOf fullText rightText
  let fallback : String :=
    match List.find? (fun op =>
        strIncludes fullText (" " ++ op ++ " ") || strIncludes fullText op)
        fallbackOperators with
    | some op => op
    | none => "?"
  if leftEnd ≥ 0 ∧ rightStart > leftEnd then
    let operatorText := jsTrim (strSubstring fullText leftEnd rightStart)
    if operatorText ≠ "" then operatorText else fallback
  else fallback

/-! ## Operator-chain flattening and chain document construction
(`binary_expression` case of `printModelica`, `printer.ts`)

The recursive `print` callback that the binary-expression case applies to
leaf operands is abstracted as a parameter `printF`. -/

/-- The node a path currently points at (`path.getValue()`). -/
def currentNode (path : AstPath) : ASTNode :=
  List.headD path (ASTNode.mk "" none [])

/-- `flattenLogical` (closure in the `and`/`or` branch): collects the
operands and operators of a maximal chain of `binary_expression` nodes
carrying the *same* logical operator, looking through one
`simple_expression` wrapper; any other node is a leaf operand, printed by
the surrounding `print`. -/
def flattenLogical (printF : ASTNode → Doc) (operator : String) :
    ASTNode → List Doc × List String
  | .mk "binary_expression" tx [c0, c1] =>
    if extractOperator (tx.getD "") c0 c1 = operator then
      let l := flattenLogical printF operator c0
      let r := flattenLogical printF operator c1
      (l.1 ++ r.1, l.2 ++ operator :: r.2)
    else
      ([printF (ASTNode.mk "binary_expression" tx [c0, c1])], [])
  | .mk "simple_expression" tx [.mk "binary_expression" ctx [c0, c1]] =>
    if extractOperator (ctx.getD "") c0 c1 = operator then
      let l := flattenLogical printF operator c0
      let r := flattenLogical printF operator c1
      (l.1 ++ r.1, l.2 ++ operator :: r.2)
    else
      ([printF (ASTNode.mk "simple_expression" tx
          [ASTNode.mk "binary_expression" ctx [c0, c1]])], [])
  | other => ([printF other], [])
termination_by structural n => n

/-- Document construction of the `and`/`or` branch (after `flattenLogical`):
`parts = [operands[0]]`, then for each operator `i` push `" "`, the
operator, and `wrapContinuation(operands[i+1], path)` for `i = 0` but a
bare `group([line, operands[i+1]])` for `i > 0`. -/
def logicalChainDoc (path : AstPath) (operands : List Doc) (ops : List String) : Doc :=
  if ops.length = 0 then
    List.getD operands 0 (Doc.text "")
  else
    Doc.concat (List.getD operands 0 (Doc.text "") ::
      List.flatMap (List.range ops.length) (fun i =>
        [Doc.text " ", Doc.text (List.getD ops i ""),
         if i = 0 then wrapContinuation (List.getD operands (i + 1) (Doc.text "")) path
         else Doc.group (Doc.concat [Doc.line, List.getD operands (i + 1) (Doc.text "")]) false]))

/-- The full logical (`and`/`or`) branch of the `binary_expression` case. -/
def logicalBinaryDoc (printF : ASTNode → Doc) (path : AstPath) (operator : String) : Doc :=
  let r := flattenLogical printF operator (currentNode path)
  logicalChainDoc path r.1 r.2

/-- `additiveOperators ++ multiplicativeOperators` of the arithmetic branch. -/
def arithmeticOperators : List String :=
  ["+", "-", ".+", ".-", "*", "/", ".*", "./"]

/-- `unwrapToBinary` (arithmetic branch): unwraps single-child
`simple_expression` wrappers down to a `binary_expression`, if any. -/
def unwrapToBinary : ASTNode → Option ASTNode
  | .mk "binary_expression" tx c => some (ASTNode.mk "binary_expression" tx c)
  | .mk "simple_expression" _ [c] => unwrapToBinary c
  | _ => none

/-- `unwrapToCore` (arithmetic branch): unwraps single-child
`simple_expression`/`primary_expression`/`expression` wrappers. -/
def unwrapToCore : ASTNode → ASTNode
  | .mk "simple_expression" _ [c] => unwrapToCore c
  | .mk "primary_expression" _ [c] => unwrapToCore c
  | .mk "expression" _ [c] => unwrapToCore c
  | other => other

/-- `isHuggable` (arithmetic branch): operands that may keep the operator on
the same line while breaking internally. -/
def isHuggable (n : ASTNode) : Bool :=
  n.type == "function_application" ||
  n.type == "parenthesized_expression" ||
  n.type == "array_constructor"

/-- `flatten` (arithmetic branch): collects operands (printed documents and
their unwrapped AST nodes) and operators of a maximal chain of
same-precedence-class arithmetic `binary_expression` nodes, looking through
`simple_expression` wrappers.  In the single-child `simple_expression` leg
the source recurses into the operands of the wrapped `binary_expression`
when it is the direct child, and re-flattens the wrapped child as a whole when the
binary expression sits deeper. -/
def flattenArith (printF : ASTNode → Doc) :
    ASTNode → List Doc × List ASTNode × List String
  | .mk "binary_expression" tx [c0, c1] =>
    let op := extractOperator (tx.getD "") c0 c1
    if op ∈ arithmeticOperators then
      let l := flattenArith printF c0
      let r := flattenArith printF c1
      (l.1 ++ r.1, l.2.1 ++ r.2.1, l.2.2 ++ op :: r.2.2)
    else
      let n := ASTNode.mk "binary_expression" tx [c0, c1]
      ([printF n], [unwrapToCore n], [])
  | .mk "simple_expression" tx [inner] =>
    let n := ASTNode.mk "simple_expression" tx [inner]
    (match inner with
    | .mk "binary_expression" itx [i0, i1] =>
      let op := extractOperator (itx.getD "") i0 i1
      if op ∈ arithmeticOperators then
        let l := flattenArith printF i0
        let r := flattenArith printF i1
        (l.1 ++ r.1, l.2.1 ++ r.2.1, l.2.2 ++ op :: r.2.2)
      else
        ([printF n], [unwrapToCore n], [])
    | other =>
      match unwrapToBinary other with
      | some (.mk _ btx [b0, b1]) =>
        let op := extractOperator (btx.getD "") b0 b1
        if op ∈ arithmeticOperators then flattenArith printF other
        else ([printF n], [unwrapToCore n], [])
      | _ => ([printF n], [unwrapToCore n], []))
  | n => ([printF n], [unwrapToCore n], [])
termination_by structural n => n

/-- Loop body of the arithmetic chain construction (`printer.ts`,
`for (let i = 0; i < ops.length; i++)`): a huggable operand becomes one
`conditionalGroup` with the three layouts (all inline; operator inline with
the operand force-broken, parenthesized operands additionally indented;
break before the operand, indented unless already in a continuation
context); other operands get `" ", op, group([line, operand])`, indented
unless already in a continuation context. -/
def arithSegment (inContinuation : Bool) (op : String) (operand : Doc)
    (operandNode : Option ASTNode) : List Doc :=
  let nonHuggable : List Doc :=
    if inContinuation then
      [Doc.text " ", Doc.text op, Doc.group (Doc.concat [Doc.line, operand]) false]
    else
      [Doc.text " ", Doc.text op, Doc.indent (Doc.group (Doc.concat [Doc.line, operand]) false)]
  match operandNode with
  | some n =>
    if isHuggable n then
      let option3 : Doc :=
        if inContinuation then
          Doc.concat [Doc.text " ", Doc.text op,
            Doc.group (Doc.concat [Doc.line, operand]) false]
        else
          Doc.concat [Doc.text " ", Doc.text op,
            Doc.indent (Doc.group (Doc.concat [Doc.line, operand]) false)]
      let option2Operand : Doc :=
        if n.type = "parenthesized_expression" then
          Doc.indent (Doc.group operand true)
        else
          Doc.group operand true
      [Doc.conditionalGroup
        [Doc.concat [Doc.text " ", Doc.text op, Doc.text " ", operand],
         Doc.concat [Doc.text " ", Doc.text op, Doc.text " ", option2Operand],
         option3]]
    else nonHuggable
  | none => nonHuggable

/-- Document construction of the arithmetic branch (after `flatten`):
`group(parts)` where `parts[0]` is the first operand followed by one
segment per operator. -/
def arithChainDoc (inContinuation : Bool) (operands : List Doc)
    (operandNodes : List ASTNode) (ops : List String) : Doc :=
  if ops.length = 0 then
    List.getD operands 0 (Doc.text "")
  else
    Doc.group (Doc.concat (List.getD operands 0 (Doc.text "") ::
      List.flatMap (List.range ops.length) (fun i =>
        arithSegment inContinuation (List.getD ops i "")
          (List.getD operands (i + 1) (Doc.text ""))
          (List.get? operandNodes (i + 1))))) false

/-- The full arithmetic branch of the `binary_expression` case:
`isInContinuationContext` is consulted once for the whole chain. -/
def arithBinaryDoc (printF : ASTNode → Doc) (path : AstPath) : Doc :=
  let r := flattenArith printF (currentNode path)
  arithChainDoc (isInContinuationContext path) r.1 r.2.1 r.2.2

/-! ## Layout engine

Modelled from the spec: the document layout engine (the prettier renderer) is
an external dependency of the repository, not under `src/`; `fitsCmds` and
`renderCmds` below follow §4.1 (fit checker) and §4.2 (layout algorithm) of
the specification, with the default `indentWidth` of 2 spaces (§6) and the
two optional line kinds of the printer (`line`: space when flat; `softline`:
empty when flat).  The iterative command-stack loop of §4.2 is written with
a fuel argument; all uses below supply more fuel than steps taken. -/

inductive Mode where
  | flat : Mode
  | brk : Mode

mutual

/-- Modelled from the spec: the propagation invariant of §3 — a group containing
a `hard` line not inside a nested group must always render broken. -/
def containsHard : Doc → Bool
  | .text _ => false
  | .concat ds => containsHardList ds
  | .line => false
  | .softline => false
  | .hardline => true
  | .indent d => containsHard d
  | .group _ _ => false
  | .conditionalGroup _ => false
termination_by structural d => d

/-- `containsHard` over the elements of a concatenation. -/
def containsHardList : List Doc → Bool
  | [] => false
  | d :: ds => containsHard d || containsHardList ds
termination_by structural l => l

end

/-- Modelled from the spec: `fits` of §4.1 — walk left to right subtracting
text lengths, fail on a negative budget or a hard line, succeed when the
budget survives or an optional line breaks in an already-broken region
(the next token then starts on a following line). -/
def fitsCmds (fuel : Nat) (w : Int) (cmds : List (Mode × Doc)) : Bool :=
  match fuel with
  | 0 => false
  | fuel + 1 =>
    if w < 0 then false
    else
      match cmds with
      | [] => true
      | (m, d) :: rest =>
        match d with
        | .text s => fitsCmds fuel (w - s.length) rest
        | .concat ds => fitsCmds fuel w (List.map (fun x => (m, x)) ds ++ rest)
        | .line =>
          match m with
          | .flat => fitsCmds fuel (w - 1) rest
          | .brk => true
        | .softline =>
          match m with
          | .flat => fitsCmds fuel w rest
          | .brk => true
        | .hardline => false
        | .indent d => fitsCmds fuel w ((m, d) :: rest)
        | .group d fb => fitsCmds fuel w ((if fb then Mode.brk else Mode.flat, d) :: rest)
        | .conditionalGroup cs =>
          match m with
          | .flat => fitsCmds fuel w ((m, List.headD cs (Doc.text "")) :: rest)
          | .brk => fitsCmds fuel w ((m, List.getLastD cs (Doc.text "")) :: rest)

/-- `n` spaces. -/
def spaces (n : Nat) : String :=
  String.mk (List.replicate n ' ')

/-- Modelled from the spec: the layout algorithm of §4.2 — a command stack
of (indent level, mode, document), a running column, text accumulated into
`acc`.  Groups break when forced (flag or propagated hard line) or when
their flat form does not fit the remaining width; a `ConditionalGroup`
renders the first of its leading candidates that fits flat and otherwise
its last candidate broken. -/
def renderCmds (fuel : Nat) (width : Nat) (col : Nat)
    (cmds : List (Nat × Mode × Doc)) (acc : String) : String :=
  match fuel with
  | 0 => acc
  | fuel + 1 =>
    match cmds with
    | [] => acc
    | (ind, m, d) :: rest =>
      match d with
      | .text s => renderCmds fuel width (col + s.length) rest (acc ++ s)
      | .concat ds =>
        renderCmds fuel width col (List.map (fun x => (ind, m, x)) ds ++ rest) acc
      | .indent d => renderCmds fuel width col ((ind + 1, m, d) :: rest) acc
      | .line =>
        match m with
        | .brk => renderCmds fuel width (2 * ind) rest (acc ++ "\n" ++ spaces (2 * ind))
        | .flat => renderCmds fuel width (col + 1) rest (acc ++ " ")
      | .softline =>
        match m with
        | .brk => renderCmds fuel width (2 * ind) rest (acc ++ "\n" ++ spaces (2 * ind))
        | .flat => renderCmds fuel width col rest acc
      | .hardline => renderCmds fuel width (2 * ind) rest (acc ++ "\n" ++ spaces (2 * ind))
      | .group d fb =>
        if fb || containsHard d then
          renderCmds fuel width col ((ind, Mode.brk, d) :: rest) acc
        else if fitsCmds fuel ((width : Int) - col) [(Mode.flat, d)] then
          renderCmds fuel width col ((ind, Mode.flat, d) :: rest) acc
        else
          renderCmds fuel width col ((ind, Mode.brk, d) :: rest) acc
      | .conditionalGroup cs =>
        match cs with
        | [] => renderCmds fuel width col rest acc
        | _ =>
          match List.find?
              (fun c => fitsCmds fuel ((width : Int) - col) [(Mode.flat, c)])
              (List.dropLast cs) with
          | some c => renderCmds fuel width col ((ind, Mode.flat, c) :: rest) acc
          | none =>
            renderCmds fuel width col ((ind, Mode.brk, List.getLastD cs (Doc.text "")) :: rest) acc

/-- Modelled from the spec: `render(doc, options)` of §6 at the default
options (`printWidth` as given, `indentWidth` 2, spaces), pushing the root
document in BREAK mode (§4.2 step 1). -/
def render (width : Nat) (d : Doc) : String :=
  renderCmds 10000 width 0 [(0, Mode.brk, d)] ""

/-! ## Translator default case and `parse` resource handling -/

/-- `printChildrenWithSpaces` from `printer.ts`: children joined by `" "`. -/
def childrenWithSpaces : List Doc → List Doc
  | [] => []
  | c :: rest => c :: List.flatMap rest (fun d => [Doc.text " ", d])

/-- The `default` case of `printModelica` (`printer.ts`): an unhandled node
kind falls back to the text of the node when it has no children and to its
children printed with space separators otherwise; no error is raised. -/
def printDefault (printF : ASTNode → Doc) (node : ASTNode) : Doc :=
  if node.children.isEmpty then
    Doc.text (node.text.getD "")
  else
    Doc.concat (childrenWithSpaces (List.map printF node.children))

/-- Outcome of a JavaScript call: a returned value or a thrown error. -/
inductive JsOutcome (α : Type) where
  | ok : α → JsOutcome α
  | thrown : String → JsOutcome α
deriving DecidableEq

/-- Environment behaviour for one `parse(sourceCode)` call (`parser.ts`):
whether the temp-file write succeeds, the `error` field of the `spawnSync`
result, its captured stdout, and whether `unlinkSync` succeeds. -/
structure SpawnBehavior where
  writeOk : Bool
  spawnError : Option String
  stdout : String
  unlinkOk : Bool

/-- `parse(sourceCode)` from `parser.ts`, as a transformer of the set of
files existing in the temp directory.  The body writes the temp file, runs
tree-sitter (throwing on a spawn error), and decodes the captured stdout
(the pure `parseSexp`/`countErrors` post-processing is irrelevant to the
temp-file lifecycle and is represented by the stdout itself); the `finally`
block unlinks the temp file inside a `try { … } catch {}` that swallows any
deletion failure. -/
def parseFs (env : SpawnBehavior) (tmpFile : String) (fs : List String) :
    JsOutcome String × List String :=
  let body : JsOutcome String × List String :=
    if env.writeOk then
      let fs1 := tmpFile :: fs
      match env.spawnError with
      | some msg => (JsOutcome.thrown ("Failed to run tree-sitter: " ++ msg), fs1)
      | none => (JsOutcome.ok env.stdout, fs1)
    else
      (JsOutcome.thrown "writeFileSync failed", fs)
  let fsAfter := if env.unlinkOk then List.filter (fun f => f != tmpFile) body.2 else body.2
  (body.1, fsAfter)

/-! ## Statement vocabulary

Kind predicates naming the recognition sets of `isInContinuationContext`
and `isInsideIfExpressionValue`, document measurements, and concrete
example trees used by witnesses and counterexamples. -/

/-- The ancestor kinds for which `isInContinuationContext` returns `true`
directly (its scope-claiming set, besides value-reached `if_expression`). -/
def isScopeClaimKind (t : String) : Bool :=
  t == "named_argument" || t == "parenthesized_expression"

/-- The ancestor kinds at which `isInContinuationContext` stops its walk. -/
def isBoundaryKind (t : String) : Bool :=
  t == "declaration" || t == "component_declaration" || t == "equation" ||
  t == "statement" || t == "element" || t == "function_call_args"

/-- The ancestor kinds at which `isInsideIfExpressionValue` stops its walk
(`function_call_args` is not among them). -/
def isIfWalkBoundaryKind (t : String) : Bool :=
  t == "declaration" || t == "component_declaration" || t == "equation" ||
  t == "statement" || t == "element"

mutual

/-- Number of `Doc.indent` wrappers in a document. -/
def countIndents : Doc → Nat
  | .text _ => 0
  | .concat ds => countIndentsList ds
  | .line => 0
  | .softline => 0
  | .hardline => 0
  | .indent d => countIndents d + 1
  | .group d _ => countIndents d
  | .conditionalGroup ds => countIndentsList ds
termination_by structural d => d

/-- Sum of `countIndents` over a list of documents. -/
def countIndentsList : List Doc → Nat
  | [] => 0
  | d :: ds => countIndents d + countIndentsList ds
termination_by structural l => l

end

/-- Split a character list into lines at `'\n'`. -/
def splitLinesAux : List Char → List Char → List (List Char)
  | [], cur => [List.reverse cur]
  | c :: rest, cur =>
    if c = '\n' then List.reverse cur :: splitLinesAux rest []
    else splitLinesAux rest (c :: cur)

/-- Leading-space depth of every line of a rendered string. -/
def lineIndents (s : String) : List Nat :=
  List.map (fun l => List.length (List.takeWhile (fun c => c == ' ') l))
    (splitLinesAux s.toList [])

/-- Whether the whole 14-iteration window of `isInContinuationContext`
(ancestor levels 2–15) is free of every kind that walk recognizes. -/
def contWindowClear (path : AstPath) : Bool :=
  List.all (List.range 14) (fun k =>
    match getParentNode path (k + 1) with
    | none => true
    | some b =>
      !(isScopeClaimKind b.type) && !(isBoundaryKind b.type) &&
        b.type != "if_expression")

/-- Whether the whole 19-iteration window of `isInsideIfExpressionValue`
(ancestor levels 2–20) is free of every kind that walk recognizes. -/
def ifWindowClear (path : AstPath) : Bool :=
  List.all (List.range 19) (fun k =>
    match getParentNode path (k + 1) with
    | none => true
    | some b => !(isIfWalkBoundaryKind b.type) && b.type != "if_expression")

/-- Leaf print callback used by concrete examples: a childless node prints
as its source text, exactly what the default case of `printModelica` does for
leaves. -/
def examplePrint : ASTNode → Doc := fun n => Doc.text (n.text.getD "")

/-- Example leaf `aaaaaa`. -/
def idA : ASTNode := ASTNode.mk "identifier" (some "aaaaaa") []

/-- Example leaf `bbbbbb`. -/
def idB : ASTNode := ASTNode.mk "identifier" (some "bbbbbb") []

/-- Example leaf `cccccc`. -/
def idC : ASTNode := ASTNode.mk "identifier" (some "cccccc") []

/-- `aaaaaa and bbbbbb`, left subchain of `andChain`. -/
def andInner : ASTNode :=
  ASTNode.mk "binary_expression" (some "aaaaaa and bbbbbb") [idA, idB]

/-- `aaaaaa and bbbbbb and cccccc` as the left-associated tree the parser
produces. -/
def andChain : ASTNode :=
  ASTNode.mk "binary_expression" (some "aaaaaa and bbbbbb and cccccc") [andInner, idC]

/-- `aaaaaa + bbbbbb`, left subchain of `plusChain`. -/
def plusInner : ASTNode :=
  ASTNode.mk "binary_expression" (some "aaaaaa + bbbbbb") [idA, idB]

/-- `aaaaaa + bbbbbb + cccccc` as the left-associated tree the parser
produces. -/
def plusChain : ASTNode :=
  ASTNode.mk "binary_expression" (some "aaaaaa + bbbbbb + cccccc") [plusInner, idC]

/-- Example boundary ancestor. -/
def declNode : ASTNode := ASTNode.mk "declaration" none []

/-- Example scope-claiming ancestor. -/
def parenNode : ASTNode := ASTNode.mk "parenthesized_expression" none []

/-- Example ancestor of a kind none of the walks recognize. -/
def unaryNode : ASTNode := ASTNode.mk "unary_expression" none []

/-- Example node of a kind `printModelica` has no case for. -/
def mysteryLeaf : ASTNode := ASTNode.mk "mystery_kind" (some "xyz") []

/-- Example unknown-kind node with children. -/
def mysteryParent : ASTNode :=
  ASTNode.mk "mystery_kind" (some "xyz abc")
    [mysteryLeaf, ASTNode.mk "identifier" (some "abc") []]

/-- Example huggable operand (a call). -/
def funcAppNode : ASTNode :=
  ASTNode.mk "function_application" (some "f(x)")
    [ASTNode.mk "identifier" (some "f") [], ASTNode.mk "identifier" (some "x") []]

/-- Example `if_expression` with condition, then-value and else-value. -/
def ifCond : ASTNode := ASTNode.mk "identifier" (some "c") []

/-- Then-value child of `ifExprNode`. -/
def ifThen : ASTNode := ASTNode.mk "identifier" (some "t") []

/-- Else-value child of `ifExprNode`. -/
def ifElse : ASTNode := ASTNode.mk "identifier" (some "e") []

/-- `if c then t else e`. -/
def ifExprNode : ASTNode :=
  ASTNode.mk "if_expression" (some "if c then t else e") [ifCond, ifThen, ifElse]

/-- A deep path whose first 15 ancestor levels are unrecognized kinds and
whose 16th ancestor is scope-claiming — beyond the window of the walk. -/
def deepParenPath : AstPath :=
  idA :: idA :: (List.replicate 14 unaryNode ++ [parenNode])

/-- A deep path whose first 20 ancestor levels are unrecognized kinds and
whose 21st ancestor is an `if_expression` — beyond the window of the walk. -/
def deepIfPath : AstPath :=
  ifThen :: ifThen :: (List.replicate 19 unaryNode ++ [ifExprNode])

/-- Helper: a `contLoop` walk over a window free of recognized kinds returns
`false` (it skips every level and runs out of fuel or ancestors). -/
theorem contLoop_false_of_clear (path : AstPath) :
    ∀ (fuel i : Nat),
      (∀ k b, i ≤ k → k < i + fuel → getParentNode path k = some b →
        isScopeClaimKind b.type = false ∧ isBoundaryKind b.type = false ∧
          b.type ≠ "if_expression") →
      contLoop path i fuel = false := by
  intro fuel
  induction fuel with
  | zero => intro i _; rfl
  | succ n ih =>
    intro i hwin
    cases hpn : getParentNode path i with
    | none => simp [contLoop, hpn]
    | some b =>
      obtain ⟨hsc, hbd, hif⟩ := hwin i b (Nat.le_refl i) (by omega) hpn
      simp only [isScopeClaimKind, Bool.or_eq_false_iff, beq_eq_false_iff_ne] at hsc
      simp only [isBoundaryKind, Bool.or_eq_false_iff, beq_eq_false_iff_ne] at hbd
      simp only [contLoop, hpn]
      simp only [hsc.1, hsc.2, hif, hbd.1.1.1.1.1, hbd.1.1.1.1.2, hbd.1.1.1.2,
        hbd.1.1.2, hbd.1.2, hbd.2, if_false, false_and, if_true]
      exact ih (i + 1) (fun k c hk1 hk2 hc => hwin k c (by omega) (by omega) hc)

/-- Helper: an `insideIfLoop` walk over a window free of recognized kinds
returns `false`. -/
theorem insideIfLoop_false_of_clear (path : AstPath) :
    ∀ (fuel i : Nat),
      (∀ k b, i ≤ k → k < i + fuel → getParentNode path k = some b →
        isIfWalkBoundaryKind b.type = false ∧ b.type ≠ "if_expression") →
      insideIfLoop path i fuel = false := by
  intro fuel
  induction fuel with
  | zero => intro i _; rfl
  | succ n ih =>
    intro i hwin
    cases hpn : getParentNode path i with
    | none => simp [insideIfLoop, hpn]
    | some b =>
      obtain ⟨hbd, hif⟩ := hwin i b (Nat.le_refl i) (by omega) hpn
      simp only [isIfWalkBoundaryKind, Bool.or_eq_false_iff, beq_eq_false_iff_ne] at hbd
      simp only [insideIfLoop, hpn]
      simp only [hif, hbd.1.1.1.1, hbd.1.1.1.2, hbd.1.1.2, hbd.1.2, hbd.2,
        if_false, if_true]
      exact ih (i + 1) (fun k c hk1 hk2 hc => hwin k c (by omega) (by omega) hc)

/-- Helper: `contLoop` returns `true` when some in-window level holds a
scope-claiming kind (or a value-reached `if_expression`) and no boundary kind
occurs below it. -/
theorem contLoop_true_of_scope (path : AstPath) :
    ∀ (fuel i j : Nat) (a : ASTNode),
      i ≤ j → j < i + fuel → getParentNode path j = some a →
      (isScopeClaimKind a.type = true ∨
        (a.type = "if_expression" ∧ isInsideIfExpressionValue path = true)) →
      (∀ k b, i ≤ k → k < j → getParentNode path k = some b →
        isBoundaryKind b.type = false) →
      contLoop path i fuel = true := by
  intro fuel
  induction fuel with
  | zero => intro i j a h1 h2; exact absurd h2 (by omega)
  | succ n ih =>
    intro i j a hij hlt ha hscope hbefore
    cases hpn : getParentNode path i with
    | none =>
      exfalso
      have hlen : path.length ≤ i + 1 := by
        simpa [getParentNode, List.get?_eq_none] using hpn
      have : j + 1 < path.length := by
        have := List.get?_eq_some.mp ha
        obtain ⟨hj, _⟩ := this
        omega
      omega
    | some b =>
      by_cases hb1 : b.type = "named_argument"
      · simp [contLoop, hpn, hb1]
      · by_cases hb2 : b.type = "parenthesized_expression"
        · simp [contLoop, hpn, hb2]
        · by_cases hij' : i = j
          · subst hij'
            rw [hpn] at ha
            injection ha with hba
            subst hba
            rcases hscope with hs | ⟨hty, hin⟩
            · exfalso
              simp only [isScopeClaimKind, Bool.or_eq_true, beq_iff_eq] at hs
              tauto
            · simp [contLoop, hpn, hty, hin]
          · have hiltj : i < j := by omega
            have hbd := hbefore i b (Nat.le_refl i) hiltj hpn
            simp only [isBoundaryKind, Bool.or_eq_false_iff, beq_eq_false_iff_ne] at hbd
            by_cases hb3 : b.type = "if_expression" ∧ isInsideIfExpressionValue path = true
            · simp [contLoop, hpn, hb3.1, hb3.2]
            · have hrec := ih (i + 1) j a (by omega) (by omega) ha hscope
                (fun k c hk1 hk2 hc => hbefore k c (by omega) hk2 hc)
              simp only [contLoop, hpn]
              simp only [hb1, hb2, if_false]
              simp only [hbd.1.1.1.1.1, hbd.1.1.1.1.2, hbd.1.1.1.2, hbd.1.1.2,
                hbd.1.2, hbd.2, if_false]
              split
              · rfl
              · exact hrec

/-- Helper: when `insideIfLoop` returns `true`, some in-window ancestor is an
`if_expression` reached through a child whose index is classified as a
then/else value. -/
theorem insideIfLoop_true_elim (path : AstPath) :
    ∀ (fuel i : Nat), insideIfLoop path i fuel = true →
      ∃ k a prev idx, i ≤ k ∧ k < i + fuel ∧ getParentNode path k = some a ∧
        a.type = "if_expression" ∧ getParentNode path (k - 1) = some prev ∧
        List.findIdx? (fun c => c == prev) a.children = some idx ∧
        isIfExpressionValue a idx = true := by
  intro fuel
  induction fuel with
  | zero => intro i h; exact absurd h (by simp [insideIfLoop])
  | succ n ih =>
    intro i h
    cases hpn : getParentNode path i with
    | none => rw [insideIfLoop, hpn] at h; exact absurd h (by simp)
    | some anc =>
      rw [insideIfLoop, hpn] at h
      by_cases htyp : anc.type = "if_expression"
      · simp only [htyp, if_true] at h
        cases hprev : getParentNode path (i - 1) with
        | none => simp only [hprev] at h; exact absurd h (by simp)
        | some prev =>
          simp only [hprev] at h
          cases hidx : List.findIdx? (fun c => c == prev) anc.children with
          | none =>
            simp only [hidx] at h
            simp at h
            obtain ⟨k, a, p, idx, hk1, hk2, rest⟩ := ih (i + 1) h
            exact ⟨k, a, p, idx, by omega, by omega, rest⟩
          | some idx =>
            simp only [hidx] at h
            by_cases hval : isIfExpressionValue anc idx = true
            · exact ⟨i, anc, prev, idx, Nat.le_refl i, by omega, hpn, htyp, hprev,
                hidx, hval⟩
            · simp only [hval, if_false] at h
              simp at h
              obtain ⟨k, a, p, idx', hk1, hk2, rest⟩ := ih (i + 1) h
              exact ⟨k, a, p, idx', by omega, by omega, rest⟩
      · simp only [htyp, if_false] at h
        split at h
        · exact absurd h (by simp)
        · split at h
          · exact absurd h (by simp)
          · split at h
            · exact absurd h (by simp)
            · split at h
              · exact absurd h (by simp)
              · split at h
                · exact absurd h (by simp)
                · obtain ⟨k, a, p, idx, hk1, hk2, rest⟩ := ih (i + 1) h
                  exact ⟨k, a, p, idx, by omega, by omega, rest⟩

/-- Helper: unpack `contWindowClear` into per-level facts. -/
theorem contWindowClear_spec (path : AstPath) (h : contWindowClear path = true) :
    ∀ k b, 1 ≤ k → k < 15 → getParentNode path k = some b →
      isScopeClaimKind b.type = false ∧ isBoundaryKind b.type = false ∧
        b.type ≠ "if_expression" := by
  intro k b hk1 hk2 hb
  have hall := List.all_eq_true.mp h (k - 1) (by simp [List.mem_range]; omega)
  rw [show k - 1 + 1 = k by omega] at hall
  rw [hb] at hall
  simp only [Bool.and_eq_true, Bool.not_eq_true', bne_iff_ne] at hall
  exact ⟨hall.1.1, hall.1.2, hall.2⟩

/-- Helper: unpack `ifWindowClear` into per-level facts. -/
theorem ifWindowClear_spec (path : AstPath) (h : ifWindowClear path = true) :
    ∀ k b, 1 ≤ k → k < 20 → getParentNode path k = some b →
      isIfWalkBoundaryKind b.type = false ∧ b.type ≠ "if_expression" := by
  intro k b hk1 hk2 hb
  have hall := List.all_eq_true.mp h (k - 1) (by simp [List.mem_range]; omega)
  rw [show k - 1 + 1 = k by omega] at hall
  rw [hb] at hall
  simp only [Bool.and_eq_true, Bool.not_eq_true', bne_iff_ne] at hall
  exact hall

/-- Claim C3: `wrapContinuation(content, path)` wraps `content` in an `Indent`
with a leading break exactly when `isInContinuationContext(path)` is false;
in a continuation context it emits a breakable group with the same content
and no extra `Indent` wrapper. -/
theorem wrapContinuation_indent_iff (content : Doc) (path : AstPath) :
    (isInContinuationContext path = false →
      wrapContinuation content path
        = Doc.group (Doc.concat [Doc.indent (Doc.concat [Doc.line, content])]) false) ∧
    (isInContinuationContext path = true →
      wrapContinuation content path
        = Doc.group (Doc.concat [Doc.line, content]) false) ∧
    countIndents (wrapContinuation content path)
      = countIndents content + (if isInContinuationContext path then 0 else 1) := by
  by_cases h : isInContinuationContext path = true
  · refine ⟨fun hf => absurd h (by simp [hf]), fun _ => ?_, ?_⟩ <;>
      simp [wrapContinuation, h, countIndents, countIndentsList]
  · have h' : isInContinuationContext path = false := by simpa using h
    refine ⟨fun _ => ?_, fun ht => absurd ht h, ?_⟩ <;>
      simp [wrapContinuation, h', countIndents, countIndentsList]

theorem wrapContinuation_indent_iff_witness :
    wrapContinuation (Doc.text "v") [idA]
      = Doc.group (Doc.concat [Doc.indent (Doc.concat [Doc.line, Doc.text "v"])]) false :=
  (wrapContinuation_indent_iff (Doc.text "v") [idA]).1 (by decide)

/-- Claim C4: the condition child (index 0) of an `if_expression` is never a value
(`isIfExpressionValue` is false there and true on then/else value
children), and `isInsideIfExpressionValue` returns true only when the
upward walk reaches an `if_expression` through a child index classified as
a value — never through the condition (index 0). -/
theorem if_condition_vs_value :
    (∀ e : ASTNode, isIfExpressionValue e 0 = false) ∧
    (∀ e : ASTNode, isIfExpressionValue e 1 = true) ∧
    (∀ (e c : ASTNode) (i : Nat), 2 ≤ i → List.get? e.children i = some c →
      c.type ≠ "else_if_clause" → isIfExpressionValue e i = true) ∧
    (∀ path : AstPath, isInsideIfExpressionValue path = true →
      ∃ k a prev idx, 1 ≤ k ∧ k ≤ 19 ∧ getParentNode path k = some a ∧
        a.type = "if_expression" ∧ getParentNode path (k - 1) = some prev ∧
        List.findIdx? (fun c => c == prev) a.children = some idx ∧
        isIfExpressionValue a idx = true ∧ idx ≠ 0) := by
  refine ⟨fun e => by simp [isIfExpressionValue],
    fun e => by simp [isIfExpressionValue], ?_, ?_⟩
  · intro e c i h2 hget hty
    rw [List.get?_eq_getElem?] at hget
    simp [isIfExpressionValue, hget, hty]
    omega
  · intro path h
    obtain ⟨k, a, prev, idx, hk1, hk2, ha, hty, hprev, hidx, hval⟩ :=
      insideIfLoop_true_elim path 19 1 h
    refine ⟨k, a, prev, idx, hk1, by omega, ha, hty, hprev, hidx, hval, ?_⟩
    intro h0
    rw [h0] at hval
    simp [isIfExpressionValue] at hval

theorem if_condition_vs_value_witness :
    isIfExpressionValue ifExprNode 0 = false ∧
    isIfExpressionValue ifExprNode 2 = true ∧
    (∃ k a prev idx, 1 ≤ k ∧ k ≤ 19 ∧
      getParentNode [idA, ifThen, ifExprNode] k = some a ∧
      a.type = "if_expression" ∧
      getParentNode [idA, ifThen, ifExprNode] (k - 1) = some prev ∧
      List.findIdx? (fun c => c == prev) a.children = some idx ∧
      isIfExpressionValue a idx = true ∧ idx ≠ 0) :=
  ⟨if_condition_vs_value.1 ifExprNode,
   if_condition_vs_value.2.2.1 ifExprNode ifElse 2 (by decide) rfl (by decide),
   if_condition_vs_value.2.2.2 [idA, ifThen, ifExprNode] (by decide)⟩

/-- Claim C2 (counterexample): the position `bbbbbb` inside the same-precedence
arithmetic chain `aaaaaa + bbbbbb` (its parent), below a `declaration`
boundary, meets a binary operator chain of its own precedence class before
any boundary — yet `isInContinuationContext` returns `false`: binary
chains are not in the scope-claiming set of the code (`printer.ts` drops
`binary_expression` from it, see the NOTE at the top of the function). -/
theorem scope_claiming_binary_counterexample :
    List.get? [idB, plusInner, declNode] 1 = some plusInner ∧
    plusInner.type = "binary_expression" ∧
    extractOperator (plusInner.text.getD "") idA idB = "+" ∧
    List.get? plusInner.children 1 = some idB ∧
    declNode.type = "declaration" ∧
    isInContinuationContext [idB, plusInner, declNode] = false := by
  refine ⟨rfl, rfl, by decide, rfl, rfl, by decide⟩

/-- Claim C2 (amended): the walk (which starts at the grandparent — the immediate
parent is never inspected) returns `true` when it meets a `named_argument`
or `parenthesized_expression` ancestor, or an `if_expression` reached
through a value branch, at some level `j + 1 ≤ 15` before any boundary
kind; binary/logical operator chains are not scope-claiming. -/
theorem scope_claiming_amended (path : AstPath) (j : Nat) (a : ASTNode)
    (hj1 : 1 ≤ j) (hj2 : j ≤ 14) (ha : getParentNode path j = some a)
    (hscope : isScopeClaimKind a.type = true ∨
      (a.type = "if_expression" ∧ isInsideIfExpressionValue path = true))
    (hbefore : ∀ k b, 1 ≤ k → k < j → getParentNode path k = some b →
      isBoundaryKind b.type = false) :
    isInContinuationContext path = true :=
  contLoop_true_of_scope path 14 1 j a hj1 (by omega) ha hscope
    (fun k b hk1 hk2 hb => hbefore k b hk1 hk2 hb)

theorem scope_claiming_amended_witness :
    isInContinuationContext [idB, idA, parenNode] = true :=
  scope_claiming_amended [idB, idA, parenNode] 1 parenNode (by decide) (by decide)
    rfl (Or.inl (by decide)) (fun k b hk1 hk2 _ => absurd hk2 (by omega))

/-- Claim C5 (counterexample): an ancestor of unrecognized kind
(`unary_expression`, neither scope-claiming nor boundary) is the first
inspected ancestor, yet the walk does not stop there and return `false`:
it skips it and finds the `parenthesized_expression` above, returning
`true`. -/
theorem unrecognized_ancestor_counterexample :
    isScopeClaimKind unaryNode.type = false ∧
    isBoundaryKind unaryNode.type = false ∧
    List.get? [idA, idB, unaryNode, parenNode] 2 = some unaryNode ∧
    isInContinuationContext [idA, idB, unaryNode, parenNode] = true := by
  refine ⟨by decide, by decide, rfl, by decide⟩

/-- Claim C5 (amended): an unrecognized ancestor kind is skipped and the walk
continues upward: a scope-claiming ancestor directly above an unrecognized
one is still found (first conjunct), and the walk returns `false` only
when its whole window is free of recognized kinds — boundary, root or
depth-cap exhaustion (second conjunct). -/
theorem unrecognized_ancestor_amended :
    (∀ (n0 n1 u p : ASTNode) (rest : List ASTNode),
      isScopeClaimKind u.type = false → isBoundaryKind u.type = false →
      u.type ≠ "if_expression" → isScopeClaimKind p.type = true →
      isInContinuationContext (n0 :: n1 :: u :: p :: rest) = true) ∧
    (∀ path : AstPath, contWindowClear path = true →
      isInContinuationContext path = false) := by
  constructor
  · intro n0 n1 u p rest hsc hbd hif hp
    refine contLoop_true_of_scope (n0 :: n1 :: u :: p :: rest) 14 1 2 p
      (by omega) (by omega) rfl (Or.inl hp) ?_
    intro k b hk1 hk2 hb
    have hk : k = 1 := by omega
    rw [hk] at hb
    have : b = u := by
      simp only [getParentNode, List.get?] at hb
      exact (Option.some.injEq _ _).mp hb.symm ▸ rfl
    rw [this]
    exact hbd
  · intro path h
    exact contLoop_false_of_clear path 14 1 (fun k b hk1 hk2 hb =>
      contWindowClear_spec path h k b hk1 (by omega) hb)

theorem unrecognized_ancestor_amended_witness :
    isInContinuationContext [idA, idB, unaryNode, parenNode, declNode] = true :=
  unrecognized_ancestor_amended.1 idA idB unaryNode parenNode [declNode]
    (by decide) (by decide) (by decide) (by decide)

/-- Claim C9: both continuation-context walks are depth-bounded —
`isInContinuationContext` inspects ancestor levels 2–15 and
`isInsideIfExpressionValue` levels 2–20, so when every inspected level is
free of the kinds the walk recognizes, the query returns `false` no matter
what lies beyond the bound. -/
theorem continuation_query_depth_bounds :
    (∀ path : AstPath, contWindowClear path = true →
      isInContinuationContext path = false) ∧
    (∀ path : AstPath, ifWindowClear path = true →
      isInsideIfExpressionValue path = false) := by
  constructor
  · intro path h
    exact contLoop_false_of_clear path 14 1 (fun k b hk1 hk2 hb =>
      contWindowClear_spec path h k b hk1 (by omega) hb)
  · intro path h
    exact insideIfLoop_false_of_clear path 19 1 (fun k b hk1 hk2 hb =>
      ifWindowClear_spec path h k b hk1 (by omega) hb)

theorem continuation_query_depth_bounds_witness :
    List.get? deepParenPath 16 = some parenNode ∧
    isInContinuationContext deepParenPath = false ∧
    List.get? deepIfPath 21 = some ifExprNode ∧
    isInsideIfExpressionValue deepIfPath = false :=
  ⟨rfl, continuation_query_depth_bounds.1 deepParenPath (by decide),
   rfl, continuation_query_depth_bounds.2 deepIfPath (by decide)⟩

/-- Helper: `countIndentsList` is additive over append. -/
theorem countIndentsList_append (l1 l2 : List Doc) :
    countIndentsList (l1 ++ l2) = countIndentsList l1 + countIndentsList l2 := by
  induction l1 with
  | nil => simp [countIndentsList]
  | cons d ds ih => simp [countIndentsList, ih]; omega

/-- Helper: `countIndentsList` over a `flatMap` is the sum of the per-index
counts. -/
theorem countIndentsList_flatMap (l : List Nat) (g : Nat → List Doc) :
    countIndentsList (List.flatMap l g)
      = List.sum (List.map (fun i => countIndentsList (g i)) l) := by
  induction l with
  | nil => simp [List.flatMap, countIndentsList]
  | cons i is ih =>
    rw [List.flatMap_cons, countIndentsList_append, ih]
    simp

/-- Helper: indexing with a `Doc.text` default into a list of indent-free
documents yields an indent-free document. -/
theorem countIndents_getD_zero (l : List Doc) (n : Nat)
    (h : ∀ d ∈ l, countIndents d = 0) :
    countIndents (Option.getD l[n]? (Doc.text "")) = 0 := by
  cases hg : l[n]? with
  | none => simp [countIndents]
  | some d =>
    have hd : d ∈ l := by
      have := List.getElem?_eq_some.mp hg
      obtain ⟨hlt, he⟩ := this
      exact he ▸ List.getElem_mem hlt
    simp [h d hd]

/-- Claim C1 (counterexample): for the flattened chain `aaaaaa and bbbbbb and
cccccc` (three operands, two `and` operators, exceeding `printWidth = 10`),
the broken rendering produced by the `binary_expression` translation places
its two continuation lines at leading-space depths 2 and 0 — two distinct
indentation levels, not one: only the first continuation operand is wrapped
in `Indent`, and the break groups of the later operands sit outside that
wrapper, so they fall back to the base level. -/
theorem chain_single_indent_counterexample :
    render 10 (logicalBinaryDoc examplePrint [andChain] "and")
      = "aaaaaa and\n  bbbbbb and\ncccccc" ∧
    lineIndents "aaaaaa and\n  bbbbbb and\ncccccc" = [0, 2, 0] ∧
    ¬ ∃ d, List.tail (lineIndents (render 10 (logicalBinaryDoc examplePrint [andChain] "and")))
        = List.replicate 2 d := by
  refine ⟨by decide, by decide, ?_⟩
  rintro ⟨d, hd⟩
  have h2 : List.tail (lineIndents (render 10 (logicalBinaryDoc examplePrint [andChain] "and")))
      = [2, 0] := by decide
  rw [h2] at hd
  simp [List.replicate] at hd
  omega

/-- Claim C1 (amended): in a flattened logical (`and`/`or`) chain, only the first
continuation operand receives an `Indent` wrapper outside a continuation
context (none inside one), so the remaining continuation lines break at the
base level — one `Indent` total, not a single shared level.  In a flattened
arithmetic chain outside a continuation context, every continuation operand
(non-huggable case) receives its own sibling `Indent` wrapper, so there the
broken rendering does place all continuation lines at exactly one level, as
the concrete rendering shows. -/
theorem chain_single_indent_amended :
    (∀ (path : AstPath) (operands : List Doc) (ops : List String),
      isInContinuationContext path = false →
      (∀ d ∈ operands, countIndents d = 0) →
      countIndents (logicalChainDoc path operands ops)
        = if ops.length = 0 then 0 else 1) ∧
    (∀ (path : AstPath) (operands : List Doc) (ops : List String),
      isInContinuationContext path = true →
      (∀ d ∈ operands, countIndents d = 0) →
      countIndents (logicalChainDoc path operands ops) = 0) ∧
    (∀ (operands : List Doc) (operandNodes : List ASTNode) (ops : List String),
      (∀ d ∈ operands, countIndents d = 0) →
      (∀ n ∈ operandNodes, isHuggable n = false) →
      countIndents (arithChainDoc false operands operandNodes ops) = ops.length) ∧
    render 10 (arithBinaryDoc examplePrint [plusChain]) = "aaaaaa +\n  bbbbbb +\n  cccccc" ∧
    lineIndents "aaaaaa +\n  bbbbbb +\n  cccccc" = [0, 2, 2] := by
  refine ⟨?_, ?_, ?_, by decide, by decide⟩
  · intro path operands ops hcont hz
    unfold logicalChainDoc
    by_cases h0 : ops.length = 0
    · simp [h0, countIndents_getD_zero operands 0 hz]
    · obtain ⟨n, hn⟩ : ∃ n, ops.length = n + 1 := ⟨ops.length - 1, by omega⟩
      simp only [h0, if_false, hn]
      simp only [countIndents, countIndentsList]
      rw [countIndentsList_flatMap, List.range_succ_eq_map]
      simp only [List.map_cons, List.sum_cons, List.map_map]
      have hsum : List.sum (List.map ((fun i => countIndentsList
          ([Doc.text " ", Doc.text (List.getD ops i ""),
            if i = 0 then wrapContinuation (List.getD operands (i + 1) (Doc.text "")) path
            else Doc.group (Doc.concat [Doc.line, List.getD operands (i + 1) (Doc.text "")]) false]))
          ∘ Nat.succ) (List.range n)) = 0 := by
        apply List.sum_eq_zero
        intro x hx
        obtain ⟨i, _, hxi⟩ := List.mem_map.mp hx
        rw [← hxi]
        simp [countIndentsList, countIndents, countIndents_getD_zero _ _ hz]
      rw [hsum]
      simp [countIndentsList, countIndents, wrapContinuation, hcont,
        countIndents_getD_zero _ _ hz]
  · intro path operands ops hcont hz
    unfold logicalChainDoc
    by_cases h0 : ops.length = 0
    · simp [h0, countIndents_getD_zero operands 0 hz]
    · obtain ⟨n, hn⟩ : ∃ n, ops.length = n + 1 := ⟨ops.length - 1, by omega⟩
      simp only [h0, if_false, hn]
      simp only [countIndents, countIndentsList]
      rw [countIndentsList_flatMap, List.range_succ_eq_map]
      simp only [List.map_cons, List.sum_cons, List.map_map]
      have hsum : List.sum (List.map ((fun i => countIndentsList
          ([Doc.text " ", Doc.text (List.getD ops i ""),
            if i = 0 then wrapContinuation (List.getD operands (i + 1) (Doc.text "")) path
            else Doc.group (Doc.concat [Doc.line, List.getD operands (i + 1) (Doc.text "")]) false]))
          ∘ Nat.succ) (List.range n)) = 0 := by
        apply List.sum_eq_zero
        intro x hx
        obtain ⟨i, _, hxi⟩ := List.mem_map.mp hx
        rw [← hxi]
        simp [countIndentsList, countIndents, countIndents_getD_zero _ _ hz]
      rw [hsum]
      simp [countIndentsList, countIndents, wrapContinuation, hcont,
        countIndents_getD_zero _ _ hz]
  · intro operands operandNodes ops hz hnh
    unfold arithChainDoc
    by_cases h0 : ops.length = 0
    · simp [h0, countIndents_getD_zero operands 0 hz]
    · obtain ⟨n, hn⟩ : ∃ n, ops.length = n + 1 := ⟨ops.length - 1, by omega⟩
      simp only [h0, if_false, hn]
      simp only [countIndents, countIndentsList]
      rw [countIndentsList_flatMap]
      have hone : ∀ i, countIndentsList (arithSegment false (List.getD ops i "")
          (List.getD operands (i + 1) (Doc.text ""))
          (List.get? operandNodes (i + 1))) = 1 := by
        intro i
        cases hg : List.get? operandNodes (i + 1) with
        | none =>
          simp [arithSegment, countIndentsList, countIndents,
            countIndents_getD_zero _ _ hz]
        | some nd =>
          have : isHuggable nd = false := hnh nd (List.get?_mem hg)
          simp [arithSegment, this, countIndentsList, countIndents,
            countIndents_getD_zero _ _ hz]
      have : List.map (fun i => countIndentsList (arithSegment false (List.getD ops i "")
          (List.getD operands (i + 1) (Doc.text ""))
          (List.get? operandNodes (i + 1)))) (List.range (n + 1))
          = List.replicate (n + 1) 1 := by
        rw [List.eq_replicate_iff]
        refine ⟨by simp, ?_⟩
        intro x hx
        obtain ⟨i, _, hxi⟩ := List.mem_map.mp hx
        rw [← hxi]
        exact hone i
      rw [this]
      simp [List.sum_replicate, countIndents_getD_zero _ _ hz]

theorem chain_single_indent_amended_witness :
    countIndents (logicalChainDoc [andChain]
      [Doc.text "aaaaaa", Doc.text "bbbbbb", Doc.text "cccccc"] ["and", "and"]) = 1 := by
  have h := chain_single_indent_amended.1 [andChain]
    [Doc.text "aaaaaa", Doc.text "bbbbbb", Doc.text "cccccc"] ["and", "and"]
    (by decide) (by decide)
  simpa using h

/-- Claim C6: a huggable operand (`function_application`,
`parenthesized_expression` or `array_constructor`) of a flattened
arithmetic chain is emitted as one `ConditionalGroup` with exactly three
candidate layouts, in order: fully flat; operator flat with the operand
force-broken internally (parenthesized operands get an extra `Indent`);
break before the operand, with an `Indent` exactly when the position is not
already in a continuation context. -/
theorem huggable_operand_conditional_group (inCont : Bool) (op : String)
    (operand : Doc) (n : ASTNode) (h : isHuggable n = true) :
    arithSegment inCont op operand (some n) =
      [Doc.conditionalGroup
        [Doc.concat [Doc.text " ", Doc.text op, Doc.text " ", operand],
         Doc.concat [Doc.text " ", Doc.text op, Doc.text " ",
           if n.type = "parenthesized_expression" then Doc.indent (Doc.group operand true)
           else Doc.group operand true],
         if inCont then
           Doc.concat [Doc.text " ", Doc.text op,
             Doc.group (Doc.concat [Doc.line, operand]) false]
         else
           Doc.concat [Doc.text " ", Doc.text op,
             Doc.indent (Doc.group (Doc.concat [Doc.line, operand]) false)]]] := by
  simp only [arithSegment, h, if_true]

theorem huggable_operand_conditional_group_witness :
    arithSegment false "+" (Doc.text "f(x)") (some funcAppNode) =
      [Doc.conditionalGroup
        [Doc.concat [Doc.text " ", Doc.text "+", Doc.text " ", Doc.text "f(x)"],
         Doc.concat [Doc.text " ", Doc.text "+", Doc.text " ",
           if funcAppNode.type = "parenthesized_expression" then
             Doc.indent (Doc.group (Doc.text "f(x)") true)
           else Doc.group (Doc.text "f(x)") true],
         if false then
           Doc.concat [Doc.text " ", Doc.text "+",
             Doc.group (Doc.concat [Doc.line, Doc.text "f(x)"]) false]
         else
           Doc.concat [Doc.text " ", Doc.text "+",
             Doc.indent (Doc.group (Doc.concat [Doc.line, Doc.text "f(x)"]) false)]]] :=
  huggable_operand_conditional_group false "+" (Doc.text "f(x)") funcAppNode (by decide)

/-- Claim C8 (counterexample): the `default` case of `printModelica` maps the
unrecognized kind `mystery_kind` to a document — the text of the node for a
leaf, its children joined by spaces otherwise — and the render carries the
content through; no error mentioning the source span of the node is raised
anywhere in the translation (the printer has no failure channel). -/
theorem untranslated_node_counterexample :
    printDefault examplePrint mysteryLeaf = Doc.text "xyz" ∧
    render 80 (printDefault examplePrint mysteryParent) = "xyz abc" := by
  refine ⟨rfl, by decide⟩

/-- Claim C8 (amended): an unrecognized node kind is not a hard failure — the
default case of the translator silently prints the source text of the node (leaf) or
its children separated by spaces, preserving content instead of raising an
error. -/
theorem untranslated_node_amended (printF : ASTNode → Doc) (node : ASTNode) :
    (node.children = [] → printDefault printF node = Doc.text (node.text.getD "")) ∧
    (node.children ≠ [] → printDefault printF node
      = Doc.concat (childrenWithSpaces (List.map printF node.children))) := by
  constructor <;> intro h <;> simp [printDefault, h]

theorem untranslated_node_amended_witness :
    printDefault examplePrint mysteryLeaf = Doc.text "xyz" ∧
    printDefault examplePrint mysteryParent
      = Doc.concat (childrenWithSpaces (List.map examplePrint mysteryParent.children)) :=
  ⟨(untranslated_node_amended examplePrint mysteryLeaf).1 rfl,
   (untranslated_node_amended examplePrint mysteryParent).2 (by simp [mysteryParent, ASTNode.children])⟩

/-- Claim C10: `parse` removes the temp file it creates before returning when the
OS permits the deletion, on the success path and on every throwing path
alike; the outcome returned to the caller is the same whichever way the
deletion goes (a deletion failure is swallowed), and the call succeeds
exactly when the temp-file write succeeds and `spawnSync` reports no
error. -/
theorem parse_temp_file_cleanup (env : SpawnBehavior) (tmpFile : String)
    (fs : List String) :
    (env.unlinkOk = true → tmpFile ∉ (parseFs env tmpFile fs).2) ∧
    (∀ b : Bool, (parseFs { env with unlinkOk := b } tmpFile fs).1
      = (parseFs env tmpFile fs).1) ∧
    ((parseFs env tmpFile fs).1 = JsOutcome.ok env.stdout ↔
      env.writeOk = true ∧ env.spawnError = none) := by
  obtain ⟨w, sp, out, u⟩ := env
  refine ⟨?_, ?_, ?_⟩
  · intro hu
    subst hu
    cases w <;> cases sp <;>
      simp [parseFs, List.mem_filter]
  · intro b
    cases w <;> cases sp <;> cases u <;> cases b <;> simp [parseFs]
  · cases w <;> cases sp <;> cases u <;> simp [parseFs]

theorem parse_temp_file_cleanup_witness :
    ("/tmp/x.mo" ∉ (parseFs ⟨true, none, "(tree)", true⟩ "/tmp/x.mo" ["keep.mo"]).2) ∧
    ("/tmp/x.mo" ∉ (parseFs ⟨true, some "boom", "", true⟩ "/tmp/x.mo" ["keep.mo"]).2) ∧
    ((parseFs ⟨true, none, "(tree)", false⟩ "/tmp/x.mo" []).1
      = (parseFs ⟨true, none, "(tree)", true⟩ "/tmp/x.mo" []).1) :=
  ⟨(parse_temp_file_cleanup ⟨true, none, "(tree)", true⟩ "/tmp/x.mo" ["keep.mo"]).1 rfl,
   (parse_temp_file_cleanup ⟨true, some "boom", "", true⟩ "/tmp/x.mo" ["keep.mo"]).1 rfl,
   (parse_temp_file_cleanup ⟨true, none, "(tree)", true⟩ "/tmp/x.mo" []).2.1 false⟩
